import Mathlib

/-!
Shallow embedding of the credit-budgeted fetch scheduler of the
whale-fetcher server, together with proofs checking the specification
claims against the code.

Components embedded (from src/):
* the credit ledger of `heliusFreeService.ts` (`checkCreditUsage`,
  `recordCreditUsage`, the wallet cache `splitCachedUncached`,
  `cacheWallet`, `getCachedWhales`);
* the `CircuitBreaker` class of `logger.ts` (second file section);
* the `RateLimiter` class of `rate-limiter.ts`, with a small-step trace
  semantics for interleaved calls;
* the `BatchProcessor` class of `batch-processor.ts` (priority queue and
  chunking).

JavaScript numbers are modelled as `Int` where they may go negative
(credit counters) and as `Nat` for timestamps, weights and sizes.
-/

namespace WhaleFetcher

/-! ## Credit ledger (`heliusFreeService.ts`) -/

/-- The `CreditUsage` record of `heliusFreeService.ts`.  Counters are `Int`
because `recordCreditUsage` decrements `remaining` without a floor. -/
structure CreditUsage where
  used : Int
  remaining : Int
  resetDate : Nat
  dailyUsed : Int
  dailyLimit : Int
deriving Repr, DecidableEq

/-- The service state relevant to credit accounting: the `creditUsage`
record and the `lastCreditCheck` timestamp (milliseconds). -/
structure LedgerState where
  creditUsage : CreditUsage
  lastCreditCheck : Nat
deriving Repr, DecidableEq

/-- Hour of day of a millisecond timestamp, as `new Date(t).getHours()`
computes it (local time modelled as UTC). -/
def hourOf (t : Nat) : Nat := t / 3600000 % 24

/-- Day index of a millisecond timestamp (days since the epoch). -/
def dayOf (t : Nat) : Nat := t / 86400000

/-- `checkCreditUsage` of `heliusFreeService.ts` (lines 95-125).  Returns
the boolean result together with the updated state.  The hourly throttle
returns early with `remaining > 1000`; a full check updates
`lastCreditCheck`, resets the daily counter when the current hour is 0 and
the counter is positive, resets the monthly counters when `now` has passed
`resetDate`, and returns `remaining > 1000`.  The `catch` branch of the
source is unreachable (the body performs no fallible call) and is not
modelled.  `nextMonthStart` stands for the value `getNextMonthStart()`
would compute at `now`. -/
def checkCreditUsage (maxCreditsPerMonth : Int) (s : LedgerState)
    (now : Nat) (nextMonthStart : Nat) : Bool × LedgerState :=
  if now - s.lastCreditCheck < 3600000 then
    (1000 < s.creditUsage.remaining, s)
  else
    let cu0 := s.creditUsage
    let cu1 := if hourOf now = 0 ∧ 0 < cu0.dailyUsed then
        { cu0 with dailyUsed := 0 } else cu0
    let cu2 := if cu1.resetDate < now then
        { cu1 with used := 0, remaining := maxCreditsPerMonth,
                   resetDate := nextMonthStart } else cu1
    (1000 < cu2.remaining, { creditUsage := cu2, lastCreditCheck := now })

/-- `recordCreditUsage` of `heliusFreeService.ts` (lines 127-135): adds
`credits` to the monthly and daily counters and subtracts it from
`remaining` (no floor; the low-credit branch only logs). -/
def recordCreditUsage (cu : CreditUsage) (credits : Int) : CreditUsage :=
  { cu with used := cu.used + credits,
            remaining := cu.remaining - credits,
            dailyUsed := cu.dailyUsed + credits }

/-- A sequence of `recordCreditUsage` calls. -/
def runRecords (cu : CreditUsage) (costs : List Int) : CreditUsage :=
  costs.foldl recordCreditUsage cu

/-- The `creditUsage` value built by the constructor of
`HeliusFreeService`: zero used, the full monthly budget remaining, zero
daily usage.  `resetAt` stands for the `getNextMonthStart()` result. -/
def initialCreditUsage (maxCreditsPerMonth maxCreditsPerDay : Int)
    (resetAt : Nat) : CreditUsage :=
  { used := 0, remaining := maxCreditsPerMonth, resetDate := resetAt,
    dailyUsed := 0, dailyLimit := maxCreditsPerDay }

/-! ## Circuit breaker (`logger.ts`, second file section) -/

/-- The three breaker states of the source (`'CLOSED' | 'OPEN' |
'HALF_OPEN'`). -/
inductive BState where
  | CLOSED
  | OPEN
  | HALF_OPEN
deriving Repr, DecidableEq

/-- The mutable fields of the `CircuitBreaker` class. -/
structure CircuitBreaker where
  failures : Nat
  lastFailureTime : Nat
  state : BState
  successCount : Nat
deriving Repr, DecidableEq

/-- The constructor parameters of `CircuitBreaker`. -/
structure BreakerConfig where
  failureThreshold : Nat
  recoveryTimeout : Nat
  successThreshold : Nat
deriving Repr, DecidableEq

/-- `CircuitBreaker.onSuccess`: zero the failure counter; in `HALF_OPEN`
count the success and close the breaker once `successThreshold` is
reached. -/
def onSuccess (cfg : BreakerConfig) (b : CircuitBreaker) : CircuitBreaker :=
  let b1 := { b with failures := 0 }
  match b1.state with
  | .HALF_OPEN =>
      let sc := b1.successCount + 1
      if cfg.successThreshold ≤ sc then
        { b1 with successCount := sc, state := .CLOSED }
      else
        { b1 with successCount := sc }
  | _ => b1

/-- `CircuitBreaker.onFailure`: count the failure, stamp
`lastFailureTime`, and open the breaker once the counter reaches
`failureThreshold`. -/
def onFailure (cfg : BreakerConfig) (b : CircuitBreaker) (now : Nat) :
    CircuitBreaker :=
  let b1 := { b with failures := b.failures + 1, lastFailureTime := now }
  if cfg.failureThreshold ≤ b1.failures then { b1 with state := .OPEN }
  else b1

/-- Outcome of one `execute` call: either the distinct breaker-open
rejection (the wrapped function was NOT invoked), or the wrapped function
was attempted and returned `ok`. -/
inductive ExecOutcome where
  | rejectedOpen
  | attempted (ok : Bool)
deriving Repr, DecidableEq

/-- The body of `execute` after the open-state gate: run the wrapped
function (its outcome is the oracle `ok`) and apply `onSuccess` or
`onFailure`. -/
def attemptCall (cfg : BreakerConfig) (b : CircuitBreaker) (now : Nat)
    (ok : Bool) : ExecOutcome × CircuitBreaker :=
  if ok then (.attempted true, onSuccess cfg b)
  else (.attempted false, onFailure cfg b now)

/-- `CircuitBreaker.execute` (lines 61-79 of the breaker file): in `OPEN`,
move to `HALF_OPEN` (zeroing `successCount`) when strictly more than
`recoveryTimeout` has elapsed since `lastFailureTime`, otherwise throw the
breaker-open error; in every other case attempt the call. -/
def execute (cfg : BreakerConfig) (b : CircuitBreaker) (now : Nat)
    (ok : Bool) : ExecOutcome × CircuitBreaker :=
  match b.state with
  | .OPEN =>
      if cfg.recoveryTimeout < now - b.lastFailureTime then
        attemptCall cfg { b with state := .HALF_OPEN, successCount := 0 }
          now ok
      else (.rejectedOpen, b)
  | _ => attemptCall cfg b now ok

/-- A run of `execute` calls whose wrapped function fails every time, at
the given timestamps. -/
def runFailures (cfg : BreakerConfig) (b : CircuitBreaker)
    (ts : List Nat) : CircuitBreaker :=
  ts.foldl (fun b t => (execute cfg b t false).2) b

/-- The breaker state right after construction. -/
def initialBreaker : CircuitBreaker :=
  { failures := 0, lastFailureTime := 0, state := .CLOSED,
    successCount := 0 }

/-! ## Wallet cache (`heliusFreeService.ts`, caching system) -/

/-- One entry of `walletCache`: the cached value, the `Date.now()` of
insertion, and the TTL chosen at insertion. -/
structure CachedWallet (V : Type) where
  wallet : V
  timestamp : Nat
  cacheTTL : Nat
deriving Repr, DecidableEq

/-- The JS `Map` is modelled as an association list in insertion order
with `Map.get` semantics: first (unique) binding of the key. -/
def jsGet {V : Type} (m : List (String × CachedWallet V)) (k : String) :
    Option (CachedWallet V) :=
  (m.find? (fun kv => kv.1 = k)).map (·.2)

/-- `Map.set` semantics: update the binding in place when the key is
present (keeping its position), otherwise append at the end. -/
def jsSet {V : Type} (m : List (String × CachedWallet V)) (k : String)
    (v : CachedWallet V) : List (String × CachedWallet V) :=
  match m with
  | [] => [(k, v)]
  | (k1, v1) :: rest =>
      if k1 = k then (k, v) :: rest else (k1, v1) :: jsSet rest k v

/-- Freshness test used by `splitCachedUncached` (lines 450-466): the
entry exists and `now - timestamp < cacheTTL`. -/
def isFresh {V : Type} (m : List (String × CachedWallet V)) (now : Nat)
    (a : String) : Bool :=
  match jsGet m a with
  | some cd => decide (now - cd.timestamp < cd.cacheTTL)
  | none => false

/-- `splitCachedUncached`: partitions the addresses, in order, into those
with a fresh cache entry and the rest. -/
def splitCachedUncached {V : Type} (m : List (String × CachedWallet V))
    (addresses : List String) (now : Nat) : List String × List String :=
  (addresses.filter (isFresh m now),
   addresses.filter (fun a => !isFresh m now a))

/-- `getCachedWhales` (lines 487-498): the credits-exhausted fallback
read.  It returns every physically present entry for the requested
addresses, with no freshness test. -/
def getCachedWhales {V : Type} (m : List (String × CachedWallet V))
    (addresses : List String) : List (String × V) :=
  addresses.filterMap (fun a => (jsGet m a).map (fun cd => (a, cd.wallet)))

/-- Comparison used by the eviction sort of `cacheWallet`:
`(a, b) => a.timestamp - b.timestamp`, ascending and stable. -/
def tsLE {V : Type} (a b : String × CachedWallet V) : Bool :=
  decide (a.2.timestamp ≤ b.2.timestamp)

/-- `cacheWallet` (lines 468-485) with the size cap abstracted (`500` in
the source): insert the entry; if the map then exceeds `cap`, sort the
entries by `timestamp` (stable, as `Array.prototype.sort`) and delete the
key of the first, i.e. the oldest, entry. -/
def cacheWalletWith {V : Type} (cap : Nat)
    (m : List (String × CachedWallet V)) (k : String)
    (v : CachedWallet V) : List (String × CachedWallet V) :=
  let m1 := jsSet m k v
  if cap < m1.length then
    match (List.mergeSort m1 tsLE).head? with
    | some e0 => m1.eraseP (fun kv => kv.1 = e0.1)
    | none => m1
  else m1

/-- `cacheWallet` with the source's literal cap of 500 entries. -/
def cacheWallet {V : Type} (m : List (String × CachedWallet V))
    (k : String) (v : CachedWallet V) : List (String × CachedWallet V) :=
  cacheWalletWith 500 m k v

/-! ## Rate limiter (`rate-limiter.ts`)

The `requests` field is a list of `(timestamp, weight)` samples.  Calls
interleave at `await` points, so the semantics is a trace of atomic
steps: a passing slot check followed by `recordRequest` (these two run
without interleaving on the JS event loop), the wrapped call finishing
with success (no state change), or finishing with failure
(`removeLastRequest`, i.e. pop of the most recent sample, whichever call
it belongs to). -/

/-- Constructor parameters of `RateLimiter`. -/
structure RLConfig where
  maxRequestsPerSecond : Nat
  burstLimit : Nat
deriving Repr, DecidableEq

/-- `cleanupOldRequests`: keep samples with `timestamp > now - 1000`. -/
def cleanupOldRequests (now : Nat) (rs : List (Nat × Nat)) :
    List (Nat × Nat) :=
  rs.filter (fun r => decide (now - 1000 < r.1))

/-- `getCurrentLoad`: total weight of all retained samples. -/
def currentLoad (rs : List (Nat × Nat)) : Nat :=
  (rs.map (·.2)).sum

/-- `getRequestsInLastSecond`: total weight of the samples in the
trailing 1-second window. -/
def requestsInLastSecond (now : Nat) (rs : List (Nat × Nat)) : Nat :=
  currentLoad (rs.filter (fun r => decide (now - 1000 < r.1)))

/-- One iteration of `checkSlot` inside `waitForSlot`, evaluated on the
state AFTER its `cleanupOldRequests` mutation: the slot is free when
admitting `weight` would exceed neither the burst cap nor the 1-second
rate cap. -/
def slotFree (cfg : RLConfig) (now weight : Nat)
    (rs : List (Nat × Nat)) : Bool :=
  let rs1 := cleanupOldRequests now rs
  !(decide (cfg.burstLimit < currentLoad rs1 + weight)) &&
    !(decide (cfg.maxRequestsPerSecond < requestsInLastSecond now rs1 + weight))

/-- Atomic trace events of concurrent `RateLimiter.execute` calls.  `id`
identifies the call.  `enter` is a slot check that passes, immediately
followed by `recordRequest`; `succeeded` is the wrapped call returning;
`failed` is the wrapped call throwing, which pops the most recent
sample (`removeLastRequest`). -/
inductive RLEvent where
  | enter (id : Nat) (t : Nat) (w : Nat)
  | succeeded (id : Nat) (t : Nat)
  | failed (id : Nat) (t : Nat)
deriving Repr, DecidableEq

/-- Effect of one event on the `requests` array. -/
def rlStep (s : List (Nat × Nat)) : RLEvent → List (Nat × Nat)
  | .enter _ t w => cleanupOldRequests t s ++ [(t, w)]
  | .succeeded _ _ => s
  | .failed _ _ => s.dropLast

/-- Run a trace from a given `requests` state. -/
def rlRun (s : List (Nat × Nat)) (es : List RLEvent) : List (Nat × Nat) :=
  es.foldl rlStep s

/-- A trace is valid when event times are non-decreasing and every
`enter` passes the slot check on the state it sees. -/
def rlValid (cfg : RLConfig) : List (Nat × Nat) → Nat → List RLEvent → Bool
  | _, _, [] => true
  | s, tp, e :: rest =>
      match e with
      | .enter _ t w =>
          decide (tp ≤ t) && slotFree cfg t w s &&
            rlValid cfg (rlStep s (.enter 0 t w)) t rest
      | .succeeded _ t =>
          decide (tp ≤ t) && rlValid cfg s t rest
      | .failed _ t =>
          decide (tp ≤ t) && rlValid cfg (s.dropLast) t rest

/-- Basic well-formedness of a trace: a call identifier enters at most
once, and finishes (succeeds or fails) at most once and only after
entering.  The accumulators carry the already-entered and
already-finished identifiers. -/
def rlWellFormed : List Nat → List Nat → List RLEvent → Bool
  | _, _, [] => true
  | entered, finished, e :: rest =>
      match e with
      | .enter i _ _ =>
          !(entered.contains i) && rlWellFormed (i :: entered) finished rest
      | .succeeded i _ =>
          entered.contains i && !(finished.contains i) &&
            rlWellFormed entered (i :: finished) rest
      | .failed i _ =>
          entered.contains i && !(finished.contains i) &&
            rlWellFormed entered (i :: finished) rest

/-- Identifiers of the calls that succeeded in a trace. -/
def succeededIds (es : List RLEvent) : List Nat :=
  es.filterMap (fun e =>
    match e with
    | .succeeded i _ => some i
    | _ => none)

/-- The `(id, timestamp, weight)` of every admitted call of a trace. -/
def enteredSamples (es : List RLEvent) : List (Nat × Nat × Nat) :=
  es.filterMap (fun e =>
    match e with
    | .enter i t w => some (i, t, w)
    | _ => none)

/-- Sum of the weights of the admitted-and-succeeded calls whose
admission timestamp lies in the trailing 1-second window at `now`. -/
def succWindowSum (es : List RLEvent) (now : Nat) : Nat :=
  (((enteredSamples es).filter (fun x =>
      (succeededIds es).contains x.1 && decide (now - 1000 < x.2.1) &&
        decide (x.2.1 ≤ now))).map (fun x => x.2.2)).sum

/-- Time of the last event of a trace (or `t` for the empty trace). -/
def traceEnd (t : Nat) : List RLEvent → Nat
  | [] => t
  | .enter _ t1 _ :: rest => traceEnd t1 rest
  | .succeeded _ t1 :: rest => traceEnd t1 rest
  | .failed _ t1 :: rest => traceEnd t1 rest

/-- A concrete interleaving of three `execute` calls against a limiter
with rate cap 10 and burst cap 50: call 1 (weight 1) is admitted and its
wrapped call is pending; call 2 (weight 9) is admitted; call 1 then
fails, and `removeLastRequest` pops call 2's sample (the most recent
one); call 3 (weight 9) is admitted against the now-undercounted window;
calls 2 and 3 succeed. -/
def rlBadTrace : List RLEvent :=
  [.enter 1 1000 1, .enter 2 1000 9, .failed 1 1000, .enter 3 1000 9,
   .succeeded 2 1000, .succeeded 3 1000]

/-! ## Batch processor (`batch-processor.ts`) -/

/-- One queued job of `BatchProcessor`: the submitted items, the numeric
priority, and an arrival index recording submission order (the position
at which `process` pushed it). -/
structure BatchJob (T : Type) where
  items : List T
  priority : Int
  arrival : Nat
deriving Repr, DecidableEq

/-- The sort order of `queue.sort((a, b) => b.priority - a.priority)`:
`a` may stay before `b` iff `b.priority ≤ a.priority` (descending). -/
def jobLE {T : Type} (a b : BatchJob T) : Bool :=
  decide (b.priority ≤ a.priority)

/-- `process` pushes the job at the end of the queue and re-sorts with
the stable `Array.prototype.sort`. -/
def enqueueJob {T : Type} (q : List (BatchJob T)) (j : BatchJob T) :
    List (BatchJob T) :=
  List.mergeSort (q ++ [j]) jobLE

/-- Queue contents after a sequence of `process` submissions into an
empty queue (no drain in between). -/
def buildQueue {T : Type} (js : List (BatchJob T)) : List (BatchJob T) :=
  js.foldl enqueueJob []

/-- The drain order the claims speak about: strictly higher priority
first, ties by earlier arrival. -/
def drainBefore {T : Type} (a b : BatchJob T) : Prop :=
  b.priority < a.priority ∨
    (a.priority = b.priority ∧ a.arrival < b.arrival)

/-- `chunkArray` of `batch-processor.ts` (also duplicated in
`heliusFreeService.ts`): slices of length `size` in input order.  The
source loop does not terminate for `size = 0` on a non-empty array; that
(never exercised) case is mapped to `[]`. -/
def chunkArray {T : Type} (xs : List T) (size : Nat) : List (List T) :=
  match xs with
  | [] => []
  | x :: rest =>
      if size = 0 then []
      else (x :: rest).take size :: chunkArray ((x :: rest).drop size) size
termination_by xs.length
decreasing_by
  simp only [List.length_drop, List.length_cons]
  rename_i h
  have hs : 0 < size := Nat.pos_of_ne_zero h
  omega

/-- The flattened result of one job: `Promise.all` keeps the chunk
results indexed in chunk order, and `.flat()` concatenates them.  The
per-chunk processor is abstracted as `f`. -/
def jobResult {T R : Type} (f : List T → List R) (xs : List T)
    (size : Nat) : List R :=
  ((chunkArray xs size).map f).flatten

/-- Config and concrete traces for the breaker claims: the constructor
defaults (`failureThreshold = 5`, `recoveryTimeout = 60000`,
`successThreshold = 3`), five consecutive failures, a successful trial
call after the recovery timeout, and then a failing call. -/
def breakerDefaults : BreakerConfig :=
  { failureThreshold := 5, recoveryTimeout := 60000, successThreshold := 3 }

/-- Breaker after five consecutive failures at times 0..4. -/
def breakerTripped : CircuitBreaker :=
  runFailures breakerDefaults initialBreaker [0, 1, 2, 3, 4]

/-- Breaker after one successful trial call at time 70000 (past the
recovery timeout). -/
def breakerAfterTrialSuccess : CircuitBreaker :=
  (execute breakerDefaults breakerTripped 70000 true).2

/-- Breaker after a subsequent failing call at time 70010. -/
def breakerAfterTrialFailure : CircuitBreaker :=
  (execute breakerDefaults breakerAfterTrialSuccess 70010 false).2

end WhaleFetcher

namespace WhaleFetcher

/-! ## Theorems -/

/-- Unfolded shape of `runRecords`: the counters move by the sum of the
recorded costs. -/
theorem runRecords_spec (costs : List Int) : ∀ cu : CreditUsage,
    (runRecords cu costs).used = cu.used + costs.sum ∧
    (runRecords cu costs).remaining = cu.remaining - costs.sum ∧
    (runRecords cu costs).dailyUsed = cu.dailyUsed + costs.sum := by
  induction costs with
  | nil => intro cu; simp [runRecords]
  | cons c cs ih =>
      intro cu
      obtain ⟨hu, hr, hd⟩ := ih (recordCreditUsage cu c)
      simp only [runRecords] at hu hr hd ⊢
      simp only [List.foldl_cons, List.sum_cons]
      rw [hu, hr, hd]
      simp only [recordCreditUsage]
      refine ⟨by ring, by ring, by ring⟩

/-- Claim C1: the claim states that `reserve(cost)`
(i.e. `checkCreditUsage`) returns true iff `remainingMonthly >= cost` and
`usedDaily + cost <= limitDaily`.  Counterexample: with 500 credits
remaining, no daily usage, a daily limit of 20 and a cost of 2 the
claimed condition holds, yet `checkCreditUsage` returns `false` (it
compares `remaining` against the fixed 1000-credit buffer and never
consults the cost or the daily counters). -/
theorem c1_counterexample :
    ((2 : Int) ≤ 500 ∧ (0 : Int) + 2 ≤ 20) ∧
    (checkCreditUsage 100
      { creditUsage :=
          { used := 0, remaining := 500, resetDate := 1000000000000000,
            dailyUsed := 0, dailyLimit := 20 },
        lastCreditCheck := 0 } 0 1000000000000000).1 = false := by
  decide

/-- Claim C1 (amended): `checkCreditUsage` takes no cost argument; it
returns true iff the remaining monthly credits (after the rollover it may
perform) strictly exceed the 1000-credit buffer, independently of any
cost and of the daily counters; so in the end-to-end scenario the check
result only reflects the monthly buffer, not daily exhaustion. -/
theorem checkCreditUsage_is_buffer_test (budget : Int) (s : LedgerState)
    (now nextMS : Nat) :
    (checkCreditUsage budget s now nextMS).1 =
      decide (1000 <
        (checkCreditUsage budget s now nextMS).2.creditUsage.remaining) := by
  unfold checkCreditUsage
  split
  · rfl
  · rfl

/-- Claim C2: counterexample to the never-negative part.  Starting from
the constructor state with the real 10M monthly budget, recording cost 2
for 5000001 calls leaves `remaining = -2 < 0`: `recordCreditUsage`
decrements with no floor. -/
theorem c2_counterexample :
    (runRecords (initialCreditUsage 10000000 333333 0)
      (List.replicate 5000001 2)).remaining = -2 ∧
    ¬ (0 : Int) ≤ (runRecords (initialCreditUsage 10000000 333333 0)
      (List.replicate 5000001 2)).remaining := by
  have hs : (List.replicate 5000001 (2 : Int)).sum = 10000002 := by
    rw [List.sum_replicate]
    norm_num
  have h := (runRecords_spec (List.replicate 5000001 (2 : Int))
    (initialCreditUsage 10000000 333333 0)).2.1
  rw [hs] at h
  constructor
  · rw [h]; norm_num [initialCreditUsage]
  · rw [h]; norm_num [initialCreditUsage]

/-- Claim C2 (amended): for every sequence of `record(cost)` calls from a
freshly reset state, `usedMonthly` is the sum of the recorded costs and
`remainingMonthly = budget - usedMonthly` as signed integers (it can go
negative when the recorded costs exceed the budget); the invariant
`usedMonthly + remainingMonthly = budgetMonthly` holds at all times,
preserved by `recordCreditUsage` and by the monthly reset inside
`checkCreditUsage`. -/
theorem creditLedger_accounting (budget : Int) (costs : List Int)
    (cu : CreditUsage) (h0 : cu.used = 0) (h1 : cu.remaining = budget) :
    (runRecords cu costs).used = costs.sum ∧
    (runRecords cu costs).remaining = budget - costs.sum ∧
    (∀ (cu1 : CreditUsage) (c : Int),
      cu1.used + cu1.remaining = budget →
      (recordCreditUsage cu1 c).used + (recordCreditUsage cu1 c).remaining
        = budget) ∧
    (∀ (s : LedgerState) (now nextMS : Nat),
      s.creditUsage.used + s.creditUsage.remaining = budget →
      (checkCreditUsage budget s now nextMS).2.creditUsage.used +
        (checkCreditUsage budget s now nextMS).2.creditUsage.remaining
        = budget) := by
  obtain ⟨hu, hr, _⟩ := runRecords_spec costs cu
  refine ⟨by rw [hu, h0]; ring, by rw [hr, h1], ?_, ?_⟩
  · intro cu1 c hinv
    simp only [recordCreditUsage]
    omega
  · intro s now nextMS hinv
    simp only [checkCreditUsage]
    split
    · exact hinv
    · split <;> split <;> simp_all

/-- Witness for `creditLedger_accounting` at the scenario numbers
(budget 100, two recorded calls of cost 2). -/
theorem creditLedger_accounting_witness :
    (initialCreditUsage 100 20 0).used = 0 ∧
    (initialCreditUsage 100 20 0).remaining = 100 ∧
    (runRecords (initialCreditUsage 100 20 0) [2, 2]).used
      = ([2, 2] : List Int).sum := by
  refine ⟨rfl, rfl, ?_⟩
  exact (creditLedger_accounting 100 [2, 2]
    (initialCreditUsage 100 20 0) rfl rfl).1

/-- Two hour-0 timestamps of the same day are less than one hour
apart. -/
theorem hour0_same_day_gap (t1 t2 : Nat) (_h1 : hourOf t1 = 0)
    (h2 : hourOf t2 = 0) (hd : dayOf t1 = dayOf t2) (hle : t1 ≤ t2) :
    t2 - t1 < 3600000 := by
  unfold hourOf at h2
  unfold dayOf at hd
  omega

/-- Claim C3: the claim states that `usedDaily` is reset exactly once per
day boundary regardless of how many times the rollover check runs that
day.  Counterexample: last check at day 0, 12:00 (t = 43200000),
`dailyUsed = 5`; the only check of day 1 runs at 13:00
(t = 133200000).  The day boundary has been crossed, the check runs in
full (the hourly throttle has elapsed), yet `dailyUsed` stays 5: the
reset only fires when a full check happens during hour 0 of the day, so
a day with no hour-0 check resets zero times, not once. -/
theorem c3_counterexample :
    dayOf 43200000 = 0 ∧ dayOf 133200000 = 1 ∧
    (checkCreditUsage 10000000
      { creditUsage :=
          { used := 20, remaining := 9999980, resetDate := 10000000000000,
            dailyUsed := 5, dailyLimit := 333333 },
        lastCreditCheck := 43200000 }
      133200000 10000000000000).2.creditUsage.dailyUsed = 5 ∧
    (5 : Int) ≠ 0 := by
  decide

/-- Claim C3 (amended): the daily reset fires at most once per day.  A
full check can only reset the counter during hour 0; after a full check
at an hour-0 instant `t1`, every further check on the same day leaves
`dailyUsed` unchanged: within the first hour it is throttled, and later
checks run at a non-zero hour (two hour-0 instants of one day are less
than the one-hour throttle apart).  A day with no full check during hour
0 is never reset. -/
theorem dailyReset_at_most_once_per_day (budget : Int) (s : LedgerState)
    (t2 nextMS : Nat) (h0 : hourOf s.lastCreditCheck = 0)
    (hday : dayOf t2 = dayOf s.lastCreditCheck)
    (hle : s.lastCreditCheck ≤ t2) :
    (checkCreditUsage budget s t2 nextMS).2.creditUsage.dailyUsed
      = s.creditUsage.dailyUsed := by
  by_cases hthr : t2 - s.lastCreditCheck < 3600000
  · simp [checkCreditUsage, hthr]
  · have hgap : ¬ t2 - s.lastCreditCheck < 3600000 := hthr
    have hne : ¬ hourOf t2 = 0 := by
      intro hz
      have := hour0_same_day_gap s.lastCreditCheck t2 h0 hz hday.symm hle
      omega
    have hcond : ¬ (hourOf t2 = 0 ∧ 0 < s.creditUsage.dailyUsed) :=
      fun hc => hne hc.1
    simp only [checkCreditUsage, if_neg hgap, if_neg hcond]
    split <;> rfl

/-- Witness for `dailyReset_at_most_once_per_day`: a full check at 02:00
of day 0 (after an hour-0 check) leaves `dailyUsed = 7`. -/
theorem dailyReset_at_most_once_per_day_witness :
    hourOf 0 = 0 ∧ dayOf 7200000 = dayOf 0 ∧
    (checkCreditUsage 10000000
      { creditUsage :=
          { used := 7, remaining := 9999993, resetDate := 10000000000000,
            dailyUsed := 7, dailyLimit := 333333 },
        lastCreditCheck := 0 } 7200000 10000000000000).2.creditUsage.dailyUsed
      = 7 := by
  refine ⟨rfl, rfl, ?_⟩
  exact dailyReset_at_most_once_per_day 10000000
    { creditUsage :=
        { used := 7, remaining := 9999993, resetDate := 10000000000000,
          dailyUsed := 7, dailyLimit := 333333 },
      lastCreditCheck := 0 } 7200000 10000000000000 rfl rfl (by decide)

/-- A run of consecutive failing calls from a `CLOSED` breaker whose
count reaches exactly the failure threshold ends `OPEN`, with
`lastFailureTime` the time of the last failure. -/
theorem runFailures_opens (cfg : BreakerConfig) : ∀ (ts : List Nat)
    (b : CircuitBreaker) (t : Nat), b.state = .CLOSED →
    b.failures + ts.length + 1 = cfg.failureThreshold →
    (runFailures cfg b (ts ++ [t])).state = .OPEN ∧
    (runFailures cfg b (ts ++ [t])).lastFailureTime = t ∧
    (runFailures cfg b (ts ++ [t])).failures = cfg.failureThreshold := by
  intro ts
  induction ts with
  | nil =>
      intro b t hs hf
      simp only [List.length_nil] at hf
      have hge : cfg.failureThreshold ≤ b.failures + 1 := by omega
      simp only [List.nil_append, runFailures, List.foldl_cons,
        List.foldl_nil]
      simp [execute, hs, attemptCall, onFailure, hge]
      omega
  | cons t0 ts ih =>
      intro b t hs hf
      simp only [List.length_cons] at hf
      simp only [List.cons_append, runFailures, List.foldl_cons]
      have hlt : ¬ cfg.failureThreshold ≤ b.failures + 1 := by omega
      have hb1 : (execute cfg b t0 false).2 =
          { b with failures := b.failures + 1, lastFailureTime := t0 } := by
        simp [execute, hs, attemptCall, onFailure, hlt]
      rw [hb1]
      have hrec := ih
        { b with failures := b.failures + 1, lastFailureTime := t0 } t
        (by simp [hs]) (by dsimp only; omega)
      simpa [runFailures] using hrec

/-- Claim C4: while `OPEN` and within the recovery timeout, `execute`
rejects with the distinct breaker-open outcome without invoking the
wrapped function and without touching the state; once strictly more than
`recoveryTimeout` milliseconds have passed since `lastFailureTime`, the
next call first moves the breaker to `HALF_OPEN` (zeroing the trial
success count) and only then attempts the call.  In particular, after
`failureThreshold` consecutive failures from a fresh breaker, the next
call (still within the timeout of the last failure) is rejected without
being attempted. -/
theorem c4_open_rejects_then_halfOpen (cfg : BreakerConfig)
    (b : CircuitBreaker) (now : Nat) (ok : Bool) :
    (b.state = .OPEN → now - b.lastFailureTime ≤ cfg.recoveryTimeout →
      execute cfg b now ok = (.rejectedOpen, b)) ∧
    (b.state = .OPEN → cfg.recoveryTimeout < now - b.lastFailureTime →
      execute cfg b now ok =
        attemptCall cfg { b with state := .HALF_OPEN, successCount := 0 }
          now ok ∧
      (execute cfg b now ok).1 = .attempted ok) ∧
    (∀ (ts : List Nat) (t : Nat),
      ts.length + 1 = cfg.failureThreshold →
      (runFailures cfg initialBreaker (ts ++ [t])).state = .OPEN ∧
      (now - t ≤ cfg.recoveryTimeout →
        execute cfg (runFailures cfg initialBreaker (ts ++ [t])) now ok =
          (.rejectedOpen, runFailures cfg initialBreaker (ts ++ [t])))) := by
  refine ⟨?_, ?_, ?_⟩
  · intro hs hto
    simp only [execute, hs]
    rw [if_neg (by omega)]
  · intro hs hto
    simp only [execute, hs]
    rw [if_pos hto]
    refine ⟨rfl, ?_⟩
    cases ok <;> simp [attemptCall]
  · intro ts t hlen
    obtain ⟨hst, hlast, _⟩ := runFailures_opens cfg ts initialBreaker t
      rfl (by simp [initialBreaker]; omega)
    refine ⟨hst, fun hto => ?_⟩
    simp only [execute, hst]
    rw [if_neg (by omega)]

/-- Witness for `c4_open_rejects_then_halfOpen`: a breaker with threshold
2 and timeout 100, opened at time 0, rejects a call at time 50; and two
consecutive failures (at times 3 and 7) from a fresh breaker leave it
`OPEN`. -/
theorem c4_witness :
    execute ⟨2, 100, 1⟩ ⟨2, 0, .OPEN, 0⟩ 50 true =
      (.rejectedOpen, ⟨2, 0, .OPEN, 0⟩) ∧
    (runFailures ⟨2, 100, 1⟩ initialBreaker ([3] ++ [7])).state = .OPEN := by
  have h := c4_open_rejects_then_halfOpen ⟨2, 100, 1⟩ ⟨2, 0, .OPEN, 0⟩
    50 true
  exact ⟨h.1 rfl (by decide), (h.2.2 [3] 7 (by decide)).1⟩

/-- Claim C5: the claim states that in every `HALF_OPEN` state,
including states reached after one or more successful trial calls, any
failure moves the breaker back to `OPEN`.  Counterexample with the
constructor defaults (threshold 5, timeout 60000ms, success threshold 3):
after five failures at times 0..4 the breaker is `OPEN`; a successful
trial call at time 70000 leaves it `HALF_OPEN` (one of three needed
successes) and, crucially, `onSuccess` resets `failures` to 0; a failing
call at time 70010 then only raises `failures` to 1, which is below the
threshold of 5, so the breaker stays `HALF_OPEN` instead of reopening. -/
theorem c5_counterexample :
    breakerAfterTrialSuccess.state = .HALF_OPEN ∧
    breakerAfterTrialFailure.state = .HALF_OPEN ∧
    breakerAfterTrialFailure.lastFailureTime = 70010 ∧
    breakerAfterTrialFailure.state ≠ .OPEN := by
  decide

/-- Claim C5 (amended): a failure of an attempted call in `HALF_OPEN`
always stamps `lastFailureTime` (restarting the recovery timer), but it
transitions the breaker to `OPEN` only when the incremented failure
counter reaches `failureThreshold`; after a successful trial call (which
zeroes the counter) a failure leaves the breaker in `HALF_OPEN` whenever
`failureThreshold > 1`. -/
theorem c5_halfOpen_failure (cfg : BreakerConfig) (b : CircuitBreaker)
    (now : Nat) (h : b.state = .HALF_OPEN) :
    (execute cfg b now false).2 = onFailure cfg b now ∧
    (onFailure cfg b now).lastFailureTime = now ∧
    ((onFailure cfg b now).state = .OPEN ↔
      cfg.failureThreshold ≤ b.failures + 1) ∧
    (b.failures + 1 < cfg.failureThreshold →
      (onFailure cfg b now).state = .HALF_OPEN) := by
  refine ⟨by simp only [execute, h, attemptCall, Bool.false_eq_true,
    if_false], ?_, ?_, ?_⟩
  · simp only [onFailure]
    split <;> rfl
  · simp only [onFailure]
    constructor
    · intro hs
      by_contra hlt
      rw [if_neg (by omega)] at hs
      simp only [h] at hs
      exact absurd hs (by simp)
    · intro hle
      rw [if_pos (by omega)]
  · intro hlt
    simp only [onFailure]
    rw [if_neg (by omega)]
    exact h

/-- Witness for `c5_halfOpen_failure`: with the default threshold 5, a
failure at time 42 in a `HALF_OPEN` breaker with a zeroed counter stays
`HALF_OPEN` and stamps the failure time. -/
theorem c5_witness :
    (execute ⟨5, 60000, 3⟩ ⟨0, 0, .HALF_OPEN, 1⟩ 42 false).2 =
      onFailure ⟨5, 60000, 3⟩ ⟨0, 0, .HALF_OPEN, 1⟩ 42 ∧
    (onFailure ⟨5, 60000, 3⟩ ⟨0, 0, .HALF_OPEN, 1⟩ 42).lastFailureTime
      = 42 ∧
    (onFailure ⟨5, 60000, 3⟩ ⟨0, 0, .HALF_OPEN, 1⟩ 42).state
      = .HALF_OPEN := by
  have h := c5_halfOpen_failure ⟨5, 60000, 3⟩ ⟨0, 0, .HALF_OPEN, 1⟩ 42 rfl
  exact ⟨h.1, h.2.1, h.2.2.2 (by decide)⟩

/-- `isFresh` holds exactly when the entry exists and is within its
TTL. -/
theorem isFresh_iff {V : Type} (m : List (String × CachedWallet V))
    (now : Nat) (a : String) :
    isFresh m now a = true ↔
      ∃ cd, jsGet m a = some cd ∧ now - cd.timestamp < cd.cacheTTL := by
  unfold isFresh
  cases h : jsGet m a with
  | none => simp
  | some cd => simp [h]

/-- Claim C6: the claim states that every read path of the cache treats
an entry with `now - storedAt >= ttl` as absent, including the
credits-exhausted fallback read.  Counterexample: an entry stored at
t = 0 with TTL 100, read at now = 500 (stale by 400ms):
`splitCachedUncached` does classify it as uncached, but the fallback
read `getCachedWhales` returns it, because that path never consults the
timestamp or the TTL. -/
theorem c6_counterexample :
    (splitCachedUncached
      [("a", ({ wallet := 42, timestamp := 0, cacheTTL := 100 } :
        CachedWallet Nat))] ["a"] 500).1 = [] ∧
    (splitCachedUncached
      [("a", ({ wallet := 42, timestamp := 0, cacheTTL := 100 } :
        CachedWallet Nat))] ["a"] 500).2 = ["a"] ∧
    100 ≤ 500 - 0 ∧
    getCachedWhales
      [("a", ({ wallet := 42, timestamp := 0, cacheTTL := 100 } :
        CachedWallet Nat))] ["a"] = [("a", 42)] := by
  decide

/-- Claim C6 (amended): the batch read path `splitCachedUncached` does
treat stale entries as absent (an address is classified cached iff its
entry exists and satisfies `now - storedAt < ttl`, uncached otherwise
without evicting), but the credits-exhausted fallback read
`getCachedWhales` ignores freshness: it returns every physically present
entry, stale or not. -/
theorem cacheReads_freshness {V : Type}
    (m : List (String × CachedWallet V)) (addresses : List String)
    (now : Nat) (a : String) (w : V) :
    (a ∈ (splitCachedUncached m addresses now).1 ↔
      a ∈ addresses ∧
        ∃ cd, jsGet m a = some cd ∧ now - cd.timestamp < cd.cacheTTL) ∧
    (a ∈ (splitCachedUncached m addresses now).2 ↔
      a ∈ addresses ∧
        ∀ cd, jsGet m a = some cd → cd.cacheTTL ≤ now - cd.timestamp) ∧
    ((a, w) ∈ getCachedWhales m addresses ↔
      a ∈ addresses ∧ ∃ cd, jsGet m a = some cd ∧ cd.wallet = w) := by
  refine ⟨?_, ?_, ?_⟩
  · simp [splitCachedUncached, List.mem_filter, isFresh_iff]
  · simp only [splitCachedUncached, List.mem_filter, Bool.not_eq_true',
      ← Bool.not_eq_true, isFresh_iff]
    simp only [not_exists, not_and, Nat.not_lt]
  · simp only [getCachedWhales, List.mem_filterMap, Option.map_eq_some']
    constructor
    · rintro ⟨x, hx, cd, hcd, heq⟩
      obtain ⟨hxa, hw⟩ := Prod.mk.injEq .. ▸ heq
      subst hxa
      exact ⟨hx, cd, hcd, hw⟩
    · rintro ⟨ha, cd, hcd, hw⟩
      exact ⟨a, ha, cd, hcd, by rw [hw]⟩

/-- `jsSet` never yields the empty list. -/
theorem jsSet_ne_nil {V : Type} (m : List (String × CachedWallet V))
    (k : String) (v : CachedWallet V) : jsSet m k v ≠ [] := by
  cases m with
  | nil => simp [jsSet]
  | cons x rest =>
      obtain ⟨k1, v1⟩ := x
      simp only [jsSet]
      split <;> simp

/-- `jsSet` leaves the key multiset unchanged except for possibly adding
the new key: the keys of `jsSet m k v` are the keys of `m` when `k` is
already bound, else they are the keys of `m` with `k` appended. -/
theorem jsSet_keys {V : Type} (m : List (String × CachedWallet V))
    (k : String) (v : CachedWallet V) :
    (jsSet m k v).map Prod.fst = m.map Prod.fst ∨
    (jsSet m k v).map Prod.fst = m.map Prod.fst ++ [k] := by
  induction m with
  | nil => right; simp [jsSet]
  | cons x rest ih =>
      obtain ⟨k1, v1⟩ := x
      simp only [jsSet]
      by_cases h : k1 = k
      · left; simp [h]
      · rw [if_neg h]
        rcases ih with ih | ih
        · left; simp [ih]
        · right; simp [ih]

/-- The head of the eviction sort is an entry of the map with minimal
`timestamp`. -/
theorem mergeSort_head_min {V : Type}
    (l : List (String × CachedWallet V)) (e0 : String × CachedWallet V)
    (h : (List.mergeSort l tsLE).head? = some e0) :
    e0 ∈ l ∧ ∀ x ∈ l, e0.2.timestamp ≤ x.2.timestamp := by
  have hperm := List.mergeSort_perm l tsLE
  have hsorted : (List.mergeSort l tsLE).Pairwise (tsLE · ·) :=
    List.sorted_mergeSort
      (fun a b c hab hbc => by
        simp only [tsLE, decide_eq_true_eq] at hab hbc ⊢; omega)
      (fun a b => by
        simp only [tsLE]
        by_cases hab : a.2.timestamp ≤ b.2.timestamp
        · simp [hab]
        · simp [hab]; omega)
      l
  obtain ⟨ys, hys⟩ := List.head?_eq_some_iff.mp h
  constructor
  · exact hperm.mem_iff.mp (by rw [hys]; exact List.mem_cons_self _ _)
  · intro x hx
    have hxs : x ∈ List.mergeSort l tsLE := hperm.mem_iff.mpr hx
    rw [hys] at hxs hsorted
    rcases List.mem_cons.mp hxs with hx0 | hxtl
    · rw [hx0]
    · have := (List.pairwise_cons.mp hsorted).1 x hxtl
      simpa [tsLE] using this

/-- Claim C7: an insertion that leaves the map within the size cap evicts
nothing; an insertion that makes the map exceed the cap evicts exactly
one entry, and it is an entry with the oldest `storedAt` timestamp (the
stable sort breaks timestamp ties by insertion order).  Stated for the
cap-abstracted `cacheWalletWith`; the source uses cap 500
(`cacheWallet`). -/
theorem cacheWallet_evicts_single_oldest {V : Type} (cap : Nat)
    (m : List (String × CachedWallet V)) (k : String) (v : CachedWallet V)
    (hnd : ((jsSet m k v).map Prod.fst).Nodup) :
    ((jsSet m k v).length ≤ cap → cacheWalletWith cap m k v = jsSet m k v) ∧
    (cap < (jsSet m k v).length →
      ∃ e0, e0 ∈ jsSet m k v ∧
        (∀ x ∈ jsSet m k v, e0.2.timestamp ≤ x.2.timestamp) ∧
        (cacheWalletWith cap m k v).length + 1 = (jsSet m k v).length ∧
        List.Perm (jsSet m k v) (e0 :: cacheWalletWith cap m k v)) := by
  constructor
  · intro hle
    unfold cacheWalletWith
    rw [if_neg (by omega)]
  · intro hgt
    have hne : jsSet m k v ≠ [] := jsSet_ne_nil m k v
    have hms : List.mergeSort (jsSet m k v) tsLE ≠ [] := by
      intro hnil
      have := List.mergeSort_perm (jsSet m k v) tsLE
      rw [hnil] at this
      exact hne this.nil_eq.symm
    obtain ⟨e0, ts, hts⟩ := List.exists_cons_of_ne_nil hms
    have hhead : (List.mergeSort (jsSet m k v) tsLE).head? = some e0 := by
      rw [hts]; rfl
    obtain ⟨he0mem, he0min⟩ := mergeSort_head_min (jsSet m k v) e0 hhead
    have hresult : cacheWalletWith cap m k v =
        (jsSet m k v).eraseP (fun kv => kv.1 = e0.1) := by
      unfold cacheWalletWith
      rw [if_pos hgt, hhead]
    obtain ⟨a1, l1, l2, hl1, hpa, hdecomp, herase⟩ :=
      List.exists_of_eraseP (p := fun kv => kv.1 = e0.1) he0mem
        (by simp)
    have ha1mem : a1 ∈ jsSet m k v := by
      rw [hdecomp]; exact List.mem_append_right _ (List.mem_cons_self _ _)
    have hkey : a1.1 = e0.1 := by simpa using hpa
    have ha1 : a1 = e0 :=
      List.inj_on_of_nodup_map hnd ha1mem he0mem hkey
    refine ⟨e0, he0mem, he0min, ?_, ?_⟩
    · rw [hresult, herase, hdecomp]
      simp only [List.length_append, List.length_cons]
      omega
    · rw [hresult, herase, hdecomp, ha1]
      exact List.perm_middle

/-- Witness for `cacheWallet_evicts_single_oldest`: with cap 1, inserting
a second entry evicts one entry with the minimal timestamp. -/
theorem c7_witness :
    ∃ e0,
      e0 ∈ jsSet [("a", ({ wallet := 5, timestamp := 10, cacheTTL := 100 } : CachedWallet Nat))] "b" { wallet := 7, timestamp := 20, cacheTTL := 100 } ∧
      (∀ x ∈ jsSet [("a", ({ wallet := 5, timestamp := 10, cacheTTL := 100 } : CachedWallet Nat))] "b" { wallet := 7, timestamp := 20, cacheTTL := 100 },
        e0.2.timestamp ≤ x.2.timestamp) ∧
      (cacheWalletWith 1 [("a", ({ wallet := 5, timestamp := 10, cacheTTL := 100 } : CachedWallet Nat))] "b" { wallet := 7, timestamp := 20, cacheTTL := 100 }).length + 1 =
        (jsSet [("a", ({ wallet := 5, timestamp := 10, cacheTTL := 100 } : CachedWallet Nat))] "b" { wallet := 7, timestamp := 20, cacheTTL := 100 }).length ∧
      List.Perm
        (jsSet [("a", ({ wallet := 5, timestamp := 10, cacheTTL := 100 } : CachedWallet Nat))] "b" { wallet := 7, timestamp := 20, cacheTTL := 100 })
        (e0 :: cacheWalletWith 1 [("a", ({ wallet := 5, timestamp := 10, cacheTTL := 100 } : CachedWallet Nat))] "b" { wallet := 7, timestamp := 20, cacheTTL := 100 }) := by
  exact (cacheWallet_evicts_single_oldest 1
    [("a", ({ wallet := 5, timestamp := 10, cacheTTL := 100 } : CachedWallet Nat))] "b"
    { wallet := 7, timestamp := 20, cacheTTL := 100 }
    (by decide)).2 (by decide)

/-- Total weight is monotone under sublists. -/
theorem currentLoad_le_of_sublist {l1 l2 : List (Nat × Nat)}
    (h : l1.Sublist l2) : currentLoad l1 ≤ currentLoad l2 := by
  induction h with
  | slnil => exact Nat.le_refl _
  | cons a h ih =>
      simp only [currentLoad, List.map_cons, List.sum_cons] at ih ⊢
      omega
  | cons₂ a h ih =>
      simp only [currentLoad, List.map_cons, List.sum_cons] at ih ⊢
      omega

/-- Weight of a filtered list is monotone in the filter predicate. -/
theorem currentLoad_filter_mono (l : List (Nat × Nat))
    (p q : Nat × Nat → Bool) (h : ∀ x, p x = true → q x = true) :
    currentLoad (l.filter p) ≤ currentLoad (l.filter q) := by
  induction l with
  | nil => simp [currentLoad]
  | cons x xs ih =>
      simp only [List.filter_cons]
      by_cases hp : p x
      · rw [if_pos hp, if_pos (h x hp)]
        simp only [currentLoad, List.map_cons, List.sum_cons] at ih ⊢
        omega
      · rw [if_neg hp]
        by_cases hq : q x
        · rw [if_pos hq]
          simp only [currentLoad, List.map_cons, List.sum_cons] at ih ⊢
          omega
        · rw [if_neg hq]
          exact ih

/-- Window sum is monotone under sublists of the sample list. -/
theorem requestsInLastSecond_le_of_sublist (n : Nat)
    {l1 l2 : List (Nat × Nat)} (h : l1.Sublist l2) :
    requestsInLastSecond n l1 ≤ requestsInLastSecond n l2 :=
  currentLoad_le_of_sublist (h.filter _)

/-- Invariant of valid rate-limiter traces: starting from a state whose
samples are no later than `t` and whose trailing-window weight is within
the rate cap at every instant from `t` on, running a valid trace keeps
every sample no later than the trace end and keeps the trailing-window
weight within the rate cap at every instant from the trace end on. -/
theorem rlInvariant (cfg : RLConfig) : ∀ (es : List RLEvent)
    (s : List (Nat × Nat)) (t : Nat),
    (∀ r ∈ s, r.1 ≤ t) →
    (∀ n, t ≤ n → requestsInLastSecond n s ≤ cfg.maxRequestsPerSecond) →
    rlValid cfg s t es = true →
    (∀ r ∈ rlRun s es, r.1 ≤ traceEnd t es) ∧
    (∀ n, traceEnd t es ≤ n →
      requestsInLastSecond n (rlRun s es) ≤ cfg.maxRequestsPerSecond) := by
  intro es
  induction es with
  | nil =>
      intro s t hts hbound _
      exact ⟨fun r hr => hts r hr, hbound⟩
  | cons e rest ih =>
      intro s t hts hbound hv
      cases e with
      | enter i t1 w =>
          simp only [rlValid, Bool.and_eq_true, decide_eq_true_eq] at hv
          obtain ⟨⟨htle, hfree⟩, hrest⟩ := hv
          have hclean : ∀ r ∈ cleanupOldRequests t1 s, r.1 ≤ t1 :=
            fun r hr =>
              Nat.le_trans (hts r ((List.filter_sublist s).subset hr)) htle
          have hts1 : ∀ r ∈ rlStep s (.enter i t1 w), r.1 ≤ t1 := by
            intro r hr
            simp only [rlStep] at hr
            rcases List.mem_append.mp hr with hr | hr
            · exact hclean r hr
            · simp only [List.mem_singleton] at hr
              rw [hr]
          have hguard : requestsInLastSecond t1 (cleanupOldRequests t1 s)
              + w ≤ cfg.maxRequestsPerSecond := by
            simp only [slotFree, Bool.and_eq_true, Bool.not_eq_true',
              decide_eq_false_iff_not, Nat.not_lt] at hfree
            exact hfree.2
          have hbound1 : ∀ n, t1 ≤ n →
              requestsInLastSecond n (rlStep s (.enter i t1 w)) ≤
                cfg.maxRequestsPerSecond := by
            intro n hn
            simp only [rlStep, requestsInLastSecond, List.filter_append,
              currentLoad, List.map_append, List.sum_append]
            have hmono : currentLoad ((cleanupOldRequests t1 s).filter
                (fun r => decide (n - 1000 < r.1))) ≤
                currentLoad ((cleanupOldRequests t1 s).filter
                (fun r => decide (t1 - 1000 < r.1))) := by
              apply currentLoad_filter_mono
              intro x hx
              simp only [decide_eq_true_eq] at hx ⊢
              omega
            have hsingle : currentLoad (List.filter
                (fun r => decide (n - 1000 < r.1)) [(t1, w)]) ≤ w := by
              simp only [List.filter_cons, List.filter_nil]
              split
              · simp [currentLoad]
              · simp [currentLoad]
            simp only [requestsInLastSecond, currentLoad] at hguard
            simp only [currentLoad] at hmono hsingle ⊢
            omega
          have hrec := ih (rlStep s (.enter i t1 w)) t1 hts1 hbound1
            (by simpa [rlStep] using hrest)
          simp only [rlRun, List.foldl_cons, traceEnd]
          exact ⟨fun r hr => (hrec.1 r (by simpa [rlRun] using hr)),
            fun n hn => hrec.2 n hn⟩
      | succeeded i t1 =>
          simp only [rlValid, Bool.and_eq_true, decide_eq_true_eq] at hv
          obtain ⟨htle, hrest⟩ := hv
          have hrec := ih s t1 (fun r hr => Nat.le_trans (hts r hr) htle)
            (fun n hn => hbound n (Nat.le_trans htle hn)) hrest
          simp only [rlRun, List.foldl_cons, traceEnd, rlStep]
          exact hrec
      | failed i t1 =>
          simp only [rlValid, Bool.and_eq_true, decide_eq_true_eq] at hv
          obtain ⟨htle, hrest⟩ := hv
          have hsub : s.dropLast.Sublist s := List.dropLast_sublist s
          have hrec := ih s.dropLast t1
            (fun r hr => Nat.le_trans (hts r (hsub.subset hr)) htle)
            (fun n hn => Nat.le_trans
              (requestsInLastSecond_le_of_sublist n hsub)
              (hbound n (Nat.le_trans htle hn)))
            hrest
          simp only [rlRun, List.foldl_cons, traceEnd, rlStep]
          exact hrec

/-- Claim C8: the claim states that in every execution trace the sum of
weights of admitted-and-succeeded calls inside any trailing 1-second
window stays within the rate cap, because a failed call's just-recorded
sample is removed before the error is rethrown.  Counterexample: with
rate cap 10 (burst 50), the interleaving `rlBadTrace` is a valid,
well-formed trace — every admission passes the slot check — yet
`removeLastRequest` pops the most recent sample of the whole array,
which belongs to the still-pending call 2, not to the failed call 1;
call 3 is then admitted against the undercounted window and the
succeeded calls 2 and 3 carry weight 18 > 10 inside the window at
t = 1000. -/
theorem c8_counterexample :
    rlValid ⟨10, 50⟩ [] 0 rlBadTrace = true ∧
    rlWellFormed [] [] rlBadTrace = true ∧
    succWindowSum rlBadTrace 1000 = 18 ∧
    ¬ (∀ (cfg : RLConfig) (es : List RLEvent),
        rlValid cfg [] 0 es = true → rlWellFormed [] [] es = true →
        ∀ n, succWindowSum es n ≤ cfg.maxRequestsPerSecond) := by
  refine ⟨by decide, by decide, by decide, fun h => ?_⟩
  have hcontra := h ⟨10, 50⟩ rlBadTrace (by decide) (by decide) 1000
  revert hcontra
  decide

/-- Claim C8 (amended): for every valid execution trace, the sum of
weights of the RETAINED samples inside the trailing 1-second window
never exceeds the rate cap at any instant from the trace end on (every
prefix of a valid trace is valid, so this bounds every moment of the
execution); on failure `removeLastRequest` pops the most recently
recorded sample, which under concurrent calls may belong to a different,
still-pending call, so the set of retained samples — not the set of
succeeded calls — is what the cap provably bounds. -/
theorem rateLimiter_window_bound (cfg : RLConfig) (es : List RLEvent)
    (hv : rlValid cfg [] 0 es = true) (n : Nat)
    (hn : traceEnd 0 es ≤ n) :
    requestsInLastSecond n (rlRun [] es) ≤ cfg.maxRequestsPerSecond :=
  (rlInvariant cfg es [] 0 (by simp)
    (fun _ _ => by simp [requestsInLastSecond, currentLoad]) hv).2 n hn

/-- Witness for `rateLimiter_window_bound`: one admitted call of weight 3
followed by its success stays within rate cap 10. -/
theorem rateLimiter_window_bound_witness :
    rlValid ⟨10, 50⟩ [] 0 [.enter 1 1000 3, .succeeded 1 1001] = true ∧
    traceEnd 0 [.enter 1 1000 3, .succeeded 1 1001] ≤ 1001 ∧
    requestsInLastSecond 1001
      (rlRun [] [.enter 1 1000 3, .succeeded 1 1001]) ≤
      (⟨10, 50⟩ : RLConfig).maxRequestsPerSecond := by
  refine ⟨by decide, by decide, ?_⟩
  exact rateLimiter_window_bound ⟨10, 50⟩
    [.enter 1 1000 3, .succeeded 1 1001] (by decide) 1001 (by decide)

/-- Claim C10: a weight exceeding the per-second cap or the burst cap can
never be admitted: the slot check fails at every instant in every state,
even the empty window, so `waitForSlot` re-polls forever (every failing
iteration of `checkSlot` schedules another), the wrapped function is
never invoked and `execute` never returns. -/
theorem c10_overweight_never_admitted (cfg : RLConfig) (w : Nat)
    (h : cfg.maxRequestsPerSecond < w ∨ cfg.burstLimit < w) :
    ∀ (t : Nat) (s : List (Nat × Nat)), slotFree cfg t w s = false := by
  intro t s
  unfold slotFree
  rcases h with h | h
  · have hrate : cfg.maxRequestsPerSecond <
        requestsInLastSecond t (cleanupOldRequests t s) + w := by omega
    simp [hrate]
  · have hburst : cfg.burstLimit <
        currentLoad (cleanupOldRequests t s) + w := by omega
    simp [hburst]

/-- Witness for `c10_overweight_never_admitted`: weight 60 against rate
cap 10 / burst cap 50 is rejected even on an empty window. -/
theorem c10_witness :
    slotFree ⟨10, 50⟩ 0 60 [] = false ∧
    slotFree ⟨10, 50⟩ 123456 60 [(123000, 1)] = false := by
  exact ⟨c10_overweight_never_admitted ⟨10, 50⟩ 60 (Or.inl (by decide))
      0 [],
    c10_overweight_never_admitted ⟨10, 50⟩ 60 (Or.inl (by decide))
      123456 [(123000, 1)]⟩

/-- The queue comparator is transitive. -/
theorem jobLE_trans {T : Type} (a b c : BatchJob T)
    (hab : jobLE a b = true) (hbc : jobLE b c = true) :
    jobLE a c = true := by
  simp only [jobLE, decide_eq_true_eq] at hab hbc ⊢
  omega

/-- The queue comparator is total. -/
theorem jobLE_total {T : Type} (a b : BatchJob T) :
    (jobLE a b || jobLE b a) = true := by
  simp only [jobLE, Bool.or_eq_true, decide_eq_true_eq]
  omega

/-- Stability of the queue re-sort: the subsequence of jobs holding any
fixed priority is unchanged by the sort (this is where
`Array.prototype.sort` being stable matters). -/
theorem enqueueJob_filter_class {T : Type} (q : List (BatchJob T))
    (j : BatchJob T) (p : Int) :
    (enqueueJob q j).filter (fun x => decide (x.priority = p)) =
      (q ++ [j]).filter (fun x => decide (x.priority = p)) := by
  have hpw : ((q ++ [j]).filter
      (fun x => decide (x.priority = p))).Pairwise
        (fun a b => jobLE a b = true) := by
    apply List.pairwise_of_forall_mem_list
    intro a ha b hb
    have hap : a.priority = p := by
      simpa using (List.mem_filter.mp ha).2
    have hbp : b.priority = p := by
      simpa using (List.mem_filter.mp hb).2
    simp only [jobLE, decide_eq_true_eq, hap, hbp]
    exact Int.le_refl p
  have hsub : ((q ++ [j]).filter
      (fun x => decide (x.priority = p))).Sublist
        (List.mergeSort (q ++ [j]) jobLE) :=
    List.sublist_mergeSort (fun a b c => jobLE_trans a b c)
      (fun a b => jobLE_total a b) hpw (List.filter_sublist _)
  have hidem : (((q ++ [j]).filter
      (fun x => decide (x.priority = p))).filter
        (fun x => decide (x.priority = p))) =
      ((q ++ [j]).filter (fun x => decide (x.priority = p))) :=
    List.filter_eq_self.mpr (fun a ha => (List.mem_filter.mp ha).2)
  have hsub2 : ((q ++ [j]).filter
      (fun x => decide (x.priority = p))).Sublist
        ((List.mergeSort (q ++ [j]) jobLE).filter
          (fun x => decide (x.priority = p))) := by
    have h := hsub.filter (fun x => decide (x.priority = p))
    rwa [hidem] at h
  have hlen : ((List.mergeSort (q ++ [j]) jobLE).filter
      (fun x => decide (x.priority = p))).length =
      ((q ++ [j]).filter (fun x => decide (x.priority = p))).length :=
    ((List.mergeSort_perm (q ++ [j]) jobLE).filter _).length_eq
  unfold enqueueJob
  exact (List.Sublist.eq_of_length hsub2 hlen.symm).symm

/-- A list that is sorted by descending priority and whose every
fixed-priority subsequence has strictly increasing arrivals is sorted by
the drain order (priority first, arrival second). -/
theorem pairwise_drainBefore_of {T : Type} : ∀ (l : List (BatchJob T)),
    l.Pairwise (fun a b => jobLE a b = true) →
    (∀ p : Int, (l.filter (fun x => decide (x.priority = p))).Pairwise
      (fun a b => a.arrival < b.arrival)) →
    l.Pairwise drainBefore
  | [], _, _ => List.Pairwise.nil
  | x :: t, hs, hc => by
      rw [List.pairwise_cons] at hs ⊢
      constructor
      · intro y hy
        have hle : y.priority ≤ x.priority := by
          have := hs.1 y hy
          simpa [jobLE] using this
        rcases lt_or_eq_of_le hle with hlt | heq
        · exact Or.inl hlt
        · refine Or.inr ⟨heq.symm, ?_⟩
          have hcx := hc x.priority
          rw [List.filter_cons_of_pos (by simp),
            List.pairwise_cons] at hcx
          exact hcx.1 y (List.mem_filter.mpr ⟨hy, by simp [heq]⟩)
      · apply pairwise_drainBefore_of t hs.2
        intro p
        have hcp := hc p
        by_cases hxp : x.priority = p
        · rw [List.filter_cons_of_pos (by simp [hxp]),
            List.pairwise_cons] at hcp
          exact hcp.2
        · rwa [List.filter_cons_of_neg (by simp [hxp])] at hcp

/-- Repeated `process` submissions keep the queue a permutation of the
submitted jobs. -/
theorem buildQueue_perm_aux {T : Type} : ∀ (js : List (BatchJob T))
    (q : List (BatchJob T)),
    List.Perm (js.foldl enqueueJob q) (q ++ js)
  | [], q => by simp
  | j :: js, q => by
      simp only [List.foldl_cons]
      have h1 := buildQueue_perm_aux js (enqueueJob q j)
      have h2 : List.Perm (enqueueJob q j) (q ++ [j]) :=
        List.mergeSort_perm _ _
      have h3 : (q ++ [j]) ++ js = q ++ j :: js := by simp
      exact h1.trans (h3 ▸ h2.append_right js)

/-- Repeated `process` submissions with strictly increasing arrival
indices keep the queue sorted by the drain order. -/
theorem buildQueue_sorted_aux {T : Type} : ∀ (js : List (BatchJob T))
    (q : List (BatchJob T)),
    q.Pairwise drainBefore →
    (∀ x ∈ q, ∀ j ∈ js, x.arrival < j.arrival) →
    js.Pairwise (fun a b => a.arrival < b.arrival) →
    (js.foldl enqueueJob q).Pairwise drainBefore
  | [], _, hq, _, _ => hq
  | j :: js, q, hq, harr, hjs => by
      simp only [List.foldl_cons]
      apply buildQueue_sorted_aux js (enqueueJob q j)
      · apply pairwise_drainBefore_of
        · exact List.sorted_mergeSort (fun a b c => jobLE_trans a b c)
            (fun a b => jobLE_total a b) (q ++ [j])
        · intro p
          rw [enqueueJob_filter_class, List.filter_append,
            List.pairwise_append]
          refine ⟨?_, ?_, ?_⟩
          · refine List.Pairwise.imp_of_mem ?_ (hq.filter _)
            intro a b ha hb hab
            have hap : a.priority = p := by
              simpa using (List.mem_filter.mp ha).2
            have hbp : b.priority = p := by
              simpa using (List.mem_filter.mp hb).2
            rcases hab with h | h
            · exact absurd h (by rw [hap, hbp]; exact lt_irrefl p)
            · exact h.2
          · exact List.Pairwise.sublist (List.filter_sublist _)
              (by simp)
          · intro a ha b hb
            have haq : a ∈ q := (List.mem_filter.mp ha).1
            have hbj : b = j := by
              have := (List.mem_filter.mp hb).1
              simpa using this
            rw [hbj]
            exact harr a haq j (List.mem_cons_self _ _)
      · intro x hx j2 hj2
        have hx2 : x ∈ q ++ [j] := by
          unfold enqueueJob at hx
          exact List.mem_mergeSort.mp hx
        rcases List.mem_append.mp hx2 with hxq | hxj
        · exact harr x hxq j2 (List.mem_cons_of_mem _ hj2)
        · have hxe : x = j := by simpa using hxj
          rw [hxe]
          exact (List.pairwise_cons.mp hjs).1 j2 hj2
      · exact (List.pairwise_cons.mp hjs).2

/-- Flattening the chunking of `chunkArray` gives back the input, for
any positive chunk size. -/
theorem chunkArray_flatten {T : Type} : ∀ (xs : List T) (n : Nat),
    0 < n → (chunkArray xs n).flatten = xs
  | [], n, _ => by simp [chunkArray]
  | x :: rest, n, hn => by
      rw [chunkArray, if_neg (by omega)]
      rw [List.flatten_cons]
      rw [chunkArray_flatten ((x :: rest).drop n) n hn]
      exact List.take_append_drop n (x :: rest)
termination_by xs _ _ => xs.length
decreasing_by
  simp only [List.length_drop, List.length_cons]
  omega

/-- Claim C9: distinct jobs are drained strictly in priority order
(higher numeric priority first) with ties broken by arrival order, and
within a single job the flattened result array preserves chunk order.
The queue built by any sequence of `process` submissions (push, then
stable re-sort by descending priority) is a permutation of the submitted
jobs sorted by the drain relation `drainBefore`; the drain loop shifts
the queue head, so queue order is drain order.  Within a job,
`Promise.all` indexes chunk results in chunk order and `.flat()`
concatenates them, so for a per-item processor the flattened result is
the processed input in input order, regardless of chunk completion
timing. -/
theorem c9_priority_and_chunk_order {T R : Type} (js : List (BatchJob T))
    (hjs : js.Pairwise (fun a b => a.arrival < b.arrival))
    (f : T → R) (xs : List T) (n : Nat) (hn : 0 < n) :
    List.Perm (buildQueue js) js ∧
    (buildQueue js).Pairwise drainBefore ∧
    (chunkArray xs n).flatten = xs ∧
    jobResult (List.map f) xs n = xs.map f := by
  refine ⟨?_, ?_, chunkArray_flatten xs n hn, ?_⟩
  · have h := buildQueue_perm_aux js []
    simpa [buildQueue] using h
  · exact buildQueue_sorted_aux js [] List.Pairwise.nil
      (fun x hx => absurd hx (List.not_mem_nil x)) hjs
  · unfold jobResult
    rw [← List.map_flatten, chunkArray_flatten xs n hn]

/-- Witness for `c9_priority_and_chunk_order`: the spec scenario — a
priority-1 job submitted first, a priority-5 job second — sorts the
priority-5 job to the queue head; chunking `[10, 20, 30]` with size 2
flattens back in input order. -/
theorem c9_witness :
    List.Perm
      (buildQueue [({ items := [], priority := 1, arrival := 0 } : BatchJob Nat), { items := [], priority := 5, arrival := 1 }])
      [({ items := [], priority := 1, arrival := 0 } : BatchJob Nat), { items := [], priority := 5, arrival := 1 }] ∧
    (buildQueue [({ items := [], priority := 1, arrival := 0 } : BatchJob Nat), { items := [], priority := 5, arrival := 1 }]).Pairwise drainBefore ∧
    buildQueue [({ items := [], priority := 1, arrival := 0 } : BatchJob Nat), { items := [], priority := 5, arrival := 1 }] =
      [({ items := [], priority := 5, arrival := 1 } : BatchJob Nat), { items := [], priority := 1, arrival := 0 }] ∧
    (chunkArray [10, 20, 30] 2).flatten = [10, 20, 30] := by
  have h := c9_priority_and_chunk_order
    (R := Nat)
    [({ items := [], priority := 1, arrival := 0 } : BatchJob Nat), { items := [], priority := 5, arrival := 1 }]
    (by decide) (fun t => t) [10, 20, 30] 2 (by decide)
  refine ⟨h.1, h.2.1, ?_, h.2.2.1⟩
  simp [buildQueue, enqueueJob, List.mergeSort, jobLE]

end WhaleFetcher
